import Mathlib

/-!
Verification development for the viviphi semantic animation engine.

The definitions below are a shallow embedding of `viviphi/semantic_injector.py`
and `viviphi/animator.py`.  Machine integers are modelled as `Nat`/`Int`,
Python floats used for animation delays as `ℚ` (all delay arithmetic in the
source is plain sums/products of decimal literals), Python exceptions as
`Option`, and the external `svgpathtools` geometry library as an abstract
structure of functions.  XML element trees are modelled as lists of records
holding exactly the attributes the code reads or writes.
-/

/-- Shallow embedding of the `EdgeSemantics` NamedTuple from
`semantic_injector.py`: source node, target node, direction string,
edge-type string and the topological animation order. -/
structure EdgeSemantics where
  source : String
  target : String
  direction : String
  edge_type : String
  order : Nat := 0
deriving DecidableEq

instance : Inhabited EdgeSemantics := ⟨⟨"", "", "", "", 0⟩⟩

/-- Python regex `\w` (ASCII view, as used on the graph texts): letters,
digits and underscore. -/
def isWordChar (c : Char) : Bool := c.isAlphanum || c == '_'

/-- Python regex `\s`: whitespace. -/
def isSpaceChar (c : Char) : Bool := c.isWhitespace

/-- Does `lit` occur verbatim at the front of `l`? -/
def listStarts : List Char → List Char → Bool
  | [], _ => true
  | _ :: _, [] => false
  | a :: as, b :: bs => a == b && listStarts as bs

/-- Python `str.split(sep)` for a single-character separator (the source
only ever splits on `'\n'` and `';'`): empty input yields one empty part,
adjacent separators yield empty parts. -/
def splitOnChar (sep : Char) : List Char → List (List Char)
  | [] => [[]]
  | c :: rest =>
    let r := splitOnChar sep rest
    if c == sep then [] :: r
    else
      match r with
      | [] => [[c]]
      | h :: t => (c :: h) :: t

/-- Python `str.strip()`: drop leading and trailing whitespace. -/
def trimChars (l : List Char) : List Char :=
  ((l.dropWhile isSpaceChar).reverse.dropWhile isSpaceChar).reverse

/-- Python `str.replace(pat, repl)`, fuelled so that the recursion is
structural (each step consumes at least one character, so `l.length` fuel
can never run out). -/
def replaceSubF : List Char → List Char → Nat → List Char → List Char
  | _, _, 0, l => l
  | [], _, _ + 1, l => l
  | _ :: _, _, _ + 1, [] => []
  | p :: ps, repl, fuel + 1, c :: rest =>
    if listStarts (p :: ps) (c :: rest) then
      repl ++ replaceSubF (p :: ps) repl fuel (rest.drop ps.length)
    else c :: replaceSubF (p :: ps) repl fuel rest

/-- Python `str.replace(pat, repl)`: replace every non-overlapping
occurrence, scanning left to right (all patterns in the source are
nonempty literals). -/
def replaceSub (pat repl l : List Char) : List Char :=
  replaceSubF pat repl l.length l

/-- Does `pat` occur anywhere in `l` (Python `pat in s`)? -/
def containsSub (pat : List Char) : List Char → Bool
  | [] => listStarts pat []
  | c :: rest => listStarts pat (c :: rest) || containsSub pat rest

/-- Match one of the injector's edge regexes at the current position.
Every pattern in `_parse_edge_semantics` has the shape
`(\w+)\s*LIT\s*(\w+)` where `LIT` starts with a character that is neither a
word nor a space character, so the greedy backtracking search of `re.search`
degenerates to: take the maximal word run, the maximal space run, the
literal, the maximal space run, then a nonempty maximal word run. -/
def matchHere (lit : List Char) (l : List Char) : Option (String × String) :=
  let w1 := l.takeWhile isWordChar
  let r1 := l.dropWhile isWordChar
  if w1.isEmpty then none
  else
    let r2 := r1.dropWhile isSpaceChar
    if listStarts lit r2 then
      let r3 := (r2.drop lit.length).dropWhile isSpaceChar
      let w2 := r3.takeWhile isWordChar
      if w2.isEmpty then none else some (String.mk w1, String.mk w2)
    else none

/-- `re.search`: try to match at every position, leftmost first. -/
def searchEdge (lit : List Char) : List Char → Option (String × String)
  | [] => none
  | c :: rest =>
    match matchHere lit (c :: rest) with
    | some r => some r
    | none => searchEdge lit rest

/-- The ordered pattern table of `_parse_edge_semantics`
(literal, edge_type, direction), in source order.  The class-diagram
patterns come first; note that the `dependency` literal `-->` is identical
to the flowchart `arrow` literal and therefore shadows it. -/
def patternTable : List (String × String × String) :=
  [ ("||--||", "aggregation", "forward"),
    ("\x7d|..-->|\x7b", "composition", "forward"),
    ("<|--", "extension", "forward"),
    ("-->", "dependency", "forward"),
    ("-->", "arrow", "forward"),
    ("<-->", "arrow", "bidirectional"),
    ("-.->", "dotted_arrow", "forward"),
    ("<-.->", "dotted_arrow", "bidirectional"),
    ("==>", "thick_arrow", "forward"),
    ("--o", "circle", "forward"),
    ("--x", "cross", "forward") ]

/-- First matching pattern wins (the `break` in the source). -/
def matchPatterns : List (String × String × String) → List Char →
    Option (String × String × String × String)
  | [], _ => none
  | (lit, ty, dir) :: rest, part =>
    match searchEdge lit.toList part with
    | some (s, t) => some (s, t, ty, dir)
    | none => matchPatterns rest part

/-- Build one `EdgeSemantics` record from a successful pattern match,
applying the source/target normalization of `_parse_edge_semantics`
(swap for `extension`; the `backward` rewrite branch is kept although no
table entry carries direction `backward`). -/
def mkEdge (s t ty dir : String) : EdgeSemantics :=
  if ty = "extension" then
    { source := t, target := s, direction := dir, edge_type := ty }
  else if dir = "backward" then
    { source := t, target := s, direction := "forward", edge_type := ty }
  else
    { source := s, target := t, direction := dir, edge_type := ty }

/-- The parsing loop of `_parse_edge_semantics`, without the final
animation-order pass: split into lines, skip blank lines and `%` comments,
split each line at `;`, and for each nonempty part record the first
matching pattern (parts that match nothing are silently skipped). -/
def parseEdgesRaw (text : String) : List EdgeSemantics :=
  (splitOnChar '\n' text.toList).foldl
    (fun acc rawLine =>
      let line := trimChars rawLine
      if line.isEmpty || listStarts ['%'] line then acc
      else
        (((splitOnChar ';' line).map trimChars).filter (fun p => !p.isEmpty)).foldl
          (fun acc2 part =>
            match matchPatterns patternTable part with
            | none => acc2
            | some (s, t, ty, dir) => acc2 ++ [mkEdge s t ty dir])
          acc)
    []

/-- Outgoing edge indices of a node (`edge_graph` in the source); the
defaultdict lists are appended while enumerating `edges`, so they hold the
indices in increasing declaration order. -/
def edgeGraphIdx (edges : List EdgeSemantics) (n : String) : List Nat :=
  (List.range edges.length).filter fun i => (edges.getD i default).source = n

/-- Incoming edge indices of a node (`edge_targets` in the source). -/
def edgeTargetsIdx (edges : List EdgeSemantics) (n : String) : List Nat :=
  (List.range edges.length).filter fun i => (edges.getD i default).target = n

/-- Number of still-unassigned edges in the per-index order table. -/
def countNone (l : List (Option Nat)) : Nat := l.countP fun o => o.isNone

/-- Inner loop of the wavefront traversal: process all outgoing edge
indices of the node just popped (`for edge_idx in outgoing_edge_indices`).
Each not-yet-assigned edge gets the next sequential order; its target is
appended to the queue when it is unvisited and either all of its incoming
edges are now assigned or it is not already queued. -/
def processEdges (edges : List EdgeSemantics) (edgeTargets : String → List Nat)
    (visited : List String) :
    List Nat → List (Option Nat) → Nat → List String →
      List (Option Nat) × Nat × List String
  | [], assigned, ord, queue => (assigned, ord, queue)
  | idx :: rest, assigned, ord, queue =>
    match assigned.get? idx with
    | some none =>
      let e := edges.getD idx default
      let assigned1 := assigned.set idx (some ord)
      let queue1 :=
        if e.target ∈ visited then queue
        else
          let incoming := edgeTargets e.target
          let allProc := incoming.all fun j => (assigned1.getD j none).isSome
          if allProc || e.target ∉ queue then queue ++ [e.target] else queue
      processEdges edges edgeTargets visited rest assigned1 (ord + 1) queue1
    | _ => processEdges edges edgeTargets visited rest assigned ord queue

/-- Outer `while queue:` loop of `_calculate_animation_order`.  A popped
node already in `visited` is skipped; otherwise it is marked visited and
its outgoing edges are processed.  The loop is fuelled so that recursion
is structural: every iteration pops one queue element, and every push is
paired with a fresh assignment, so the measure
`2 * countNone assigned + queue.length` bounds the number of iterations
(`bfsLoopF_fuel_irrelevant` below proves any fuel at or above that bound
yields the same result, so the fuelled loop agrees with the unbounded
`while`). -/
def bfsLoopF (edges : List EdgeSemantics) (edgeGraph edgeTargets : String → List Nat) :
    Nat → List (Option Nat) → Nat → List String → List String →
      List (Option Nat) × Nat
  | 0, assigned, ord, _, _ => (assigned, ord)
  | _ + 1, assigned, ord, _, [] => (assigned, ord)
  | fuel + 1, assigned, ord, visited, n :: rest =>
    if n ∈ visited then
      bfsLoopF edges edgeGraph edgeTargets fuel assigned ord visited rest
    else
      let res := processEdges edges edgeTargets (n :: visited) (edgeGraph n)
        assigned ord rest
      bfsLoopF edges edgeGraph edgeTargets fuel res.1 res.2.1 (n :: visited) res.2.2

/-- Final pass of `_calculate_animation_order`: walk the per-index table in
declaration order, keep already-assigned orders, and hand out the next
sequential orders to the remainder. -/
def leftoverPass : List (Option Nat) → Nat → List Nat
  | [], _ => []
  | some k :: rest, ord => k :: leftoverPass rest ord
  | none :: rest, ord => ord :: leftoverPass rest (ord + 1)

/-- Seed computation plus BFS of `_calculate_animation_order`.  `nodeIter`
stands for the iteration order of the Python `set` `all_nodes`
(Python string hashing is randomized, so this order is not determined by
the input text; every permutation of the node set is a legitimate run). -/
def bfsResult (nodeIter : List String) (edges : List EdgeSemantics) :
    List (Option Nat) × Nat :=
  let edgeTargets := edgeTargetsIdx edges
  let startNodes0 := nodeIter.filter fun n => (edgeTargets n).isEmpty
  let startNodes :=
    if startNodes0.isEmpty then
      let counts := nodeIter.map fun n => (edgeTargets n).length
      let minIncoming := match counts with
        | [] => 0
        | x :: xs => xs.foldl Nat.min x
      nodeIter.filter fun n => (edgeTargets n).length = minIncoming
    else startNodes0
  bfsLoopF edges (edgeGraphIdx edges) edgeTargets
    (2 * edges.length + startNodes.length + 1)
    (List.replicate edges.length none) 0 [] startNodes

/-- The completed per-index order table: BFS result completed by the
leftover pass. -/
def finalOrders (nodeIter : List String) (edges : List EdgeSemantics) : List Nat :=
  leftoverPass (bfsResult nodeIter edges).1 (bfsResult nodeIter edges).2

/-- `_calculate_animation_order`: empty input is returned unchanged;
otherwise run the wavefront traversal from the seed nodes, complete the
table with the leftover pass, and rebuild each record with its order
(the Python loops fill `ordered_edges[i]` with `edges[i]` carrying the
order assigned to index `i`). -/
def calcAnimationOrder (nodeIter : List String) (edges : List EdgeSemantics) :
    List EdgeSemantics :=
  if edges.isEmpty then edges
  else
    List.zipWith (fun e o => { e with order := o }) edges (finalOrders nodeIter edges)

/-- Nodes of the edge list in first-occurrence order; the canonical
instantiation of `nodeIter` used for concrete runs. -/
def allNodesFirstOccur (edges : List EdgeSemantics) : List String :=
  (edges.foldl (fun acc e => acc ++ [e.source, e.target]) []).foldl
    (fun acc n => if n ∈ acc then acc else acc ++ [n]) []

/-- `_parse_edge_semantics`: extraction followed by the animation-order
pass, with the canonical node iteration order. -/
def parseEdgeSemantics (text : String) : List EdgeSemantics :=
  calcAnimationOrder (allNodesFirstOccur (parseEdgesRaw text)) (parseEdgesRaw text)

/-! ### Semantic attribute injection (`inject_metadata`) -/

/-- A path element as seen by the injector: whether it sits inside a
marker definition, and its attribute list (insertion ordered, as in
ElementTree). -/
structure InjPath where
  inMarker : Bool
  attrs : List (String × String)
deriving DecidableEq

/-- `Element.set`: replace the value in place when the key exists,
append otherwise. -/
def setAttr (attrs : List (String × String)) (k v : String) :
    List (String × String) :=
  if attrs.any (fun p => p.1 = k) then
    attrs.map fun p => if p.1 = k then (k, v) else p
  else attrs ++ [(k, v)]

/-- `_add_semantic_attributes`: the five data attributes, in source order. -/
def addSemanticAttributes (p : InjPath) (e : EdgeSemantics) : InjPath :=
  let a1 := setAttr p.attrs "data-flow-direction" e.direction
  let a2 := setAttr a1 "data-source-node" e.source
  let a3 := setAttr a2 "data-target-node" e.target
  let a4 := setAttr a3 "data-edge-type" e.edge_type
  let a5 := setAttr a4 "data-animation-order" (toString e.order)
  { p with attrs := a5 }

/-- Body of `inject_metadata`: walk the paths in document order keeping a
counter of non-marker paths seen; the `i`-th non-marker path receives the
`i`-th record when one exists, surplus paths and marker paths pass through
unchanged. -/
def injectMetadata (recs : List EdgeSemantics) : List InjPath → Nat → List InjPath
  | [], _ => []
  | p :: rest, i =>
    if p.inMarker then p :: injectMetadata recs rest i
    else
      (if i < recs.length then addSemanticAttributes p (recs.getD i default) else p)
        :: injectMetadata recs rest (i + 1)

/-- `inject_metadata` over the document-ordered path list. -/
def injectAll (recs : List EdgeSemantics) (ps : List InjPath) : List InjPath :=
  injectMetadata recs ps 0

/-! ### The animation transformer (`animator.py`) -/

/-- A CSS declaration value appended to an element's `style` attribute:
either a plain string or an exact rational (delays and stroke lengths). -/
inductive CssVal where
  | s (v : String)
  | q (v : ℚ)
deriving DecidableEq

/-- Model of an SVG element as the animator sees it: exactly the
attributes the code reads or writes; `none` is an absent attribute.
The `style` attribute is modelled as the ordered list of declarations the
code appends (the source builds it by string concatenation). -/
structure PathElem where
  tag : String := "path"
  d : Option String := none
  markerStart : Option String := none
  markerEnd : Option String := none
  flowDirection : Option String := none
  animationOrder : Option Int := none
  style : List (String × CssVal) := []
  cls : Option String := none
  stroke : Option String := none
  fill : Option String := none
  transform : Option String := none
deriving DecidableEq

/-- A marker definition in the defs container: its id and the `d` strings
of the paths nested inside it. -/
structure MarkerDef where
  id : String
  pathDs : List String
deriving DecidableEq

/-- Mutable animator state: the defs container and the memo set
`_reversed_markers`. -/
structure AnimState where
  defs : List MarkerDef := []
  memo : List String := []
deriving DecidableEq

/-- Abstract interface to the external `svgpathtools` collaborator:
`parse` models `parse_path` together with any exception raised while
measuring the freshly parsed path (`none` = exception, caught by the
per-element handler before any mutation), `plen` models `.length()`,
`rev` models `.reversed()`, `toD` models `.d()`. -/
structure Geom (P : Type) where
  parse : String → Option P
  plen : P → ℚ
  rev : P → P
  toD : P → String

/-- `"extension" in marker_id.lower()`. -/
def idHasExtensionKind (markerId : String) : Bool :=
  containsSub "extension".toList (markerId.toList.map Char.toLower)

/-- `marker_start.replace("url(#", "").replace(")", "")` — both
replacements apply to every occurrence, as in Python `str.replace`. -/
def stripMarkerId (s : String) : String :=
  String.mk (replaceSub ")".toList [] (replaceSub "url(#".toList [] s.toList))

/-- The derived reference written for a reversed marker:
`f"url(#\x7bmarker_id\x7d_reversed)"`. -/
def reversedRef (s : String) : String :=
  "url(#" ++ stripMarkerId s ++ "_reversed)"

/-- `_create_reversed_marker`: no-op when the derived id was already
created or the original marker id is not found in the defs container;
otherwise append a copy carrying the derived id, flipping every nonempty
inner path when the id marks an extension-style tip, and memoize.
`flipD` stands for `_flip_path_horizontally(d, 18)`, a pure string map
whose output none of the claims depend on. -/
def createReversedMarker (flipD : String → String) (st : AnimState)
    (markerId : String) : AnimState :=
  let reversedId := markerId ++ "_reversed"
  if reversedId ∈ st.memo then st
  else
    match st.defs.find? (fun m => m.id = markerId) with
    | none => st
    | some m =>
      let newPaths := m.pathDs.map fun dstr =>
        if dstr = "" then dstr
        else if idHasExtensionKind markerId then flipD dstr else dstr
      { defs := st.defs ++ [{ id := reversedId, pathDs := newPaths }],
        memo := st.memo ++ [reversedId] }

/-- The reversal trigger computed at lines 213–223 of `animator.py`. -/
def needsReversal (flow ms me : String) : Bool :=
  if flow = "forward" then ms != "none" && me == "none"
  else if flow = "backward" then me != "none" && ms == "none"
  else false

/-- The reconciliation predicate in the spec's words (§4.2 step 3):
under `Forward` a marker present only at the curve's start triggers
reversal; symmetrically for `Backward` with a marker only at the end;
`Bidirectional` and already-consistent placements do not trigger. -/
def needsReversalSpec (flow ms me : String) : Prop :=
  (flow = "forward" ∧ ms ≠ "none" ∧ me = "none") ∨
  (flow = "backward" ∧ me ≠ "none" ∧ ms = "none")

/-- The direction-reconciliation step restricted to the curve's own
attributes (lines 207–246): read the semantic direction (default
`forward`) and the marker attributes (default `"none"`); when reversal
triggers, install the reversed drawing string `newD`, repoint each present
marker reference to its derived `_reversed` id, and swap the two marker
attributes (the swap writes the literal string `"none"` into a slot whose
counterpart was absent). -/
def reconcileCurve (newD : String) (c : PathElem) : PathElem :=
  let flow := c.flowDirection.getD "forward"
  let ms := c.markerStart.getD "none"
  let me := c.markerEnd.getD "none"
  if needsReversal flow ms me then
    let ms1 := if ms != "none" then reversedRef ms else ms
    let me1 := if me != "none" then reversedRef me else me
    { c with d := some newD, markerStart := some me1, markerEnd := some ms1 }
  else c

/-- Delay multiplier for a line-edge curve: the `data-animation-order`
attribute when present, the positional index otherwise. -/
def lineDelayMult (i : Nat) (animOrder : Option Int) : Int :=
  match animOrder with
  | some k => k
  | none => (i : Int)

/-- Shared shape of both line-path loops (`process` and
`process_with_theme` differ only in the color, stagger and class
constants).  Skip elements without a drawing string; a parse/measure
failure leaves element and state untouched (the exception is raised before
any mutation); otherwise reconcile the direction — creating reversed
marker definitions for each present reference — then append the custom
properties and delay to the style, assign the edge class, strip the live
marker attributes and enforce stroke/fill. -/
def processLineCore {P : Type} (geom : Geom P) (flipD : String → String)
    (color : String) (stagger : ℚ) (clsStr : String)
    (st : AnimState) (i : Nat) (c : PathElem) : AnimState × PathElem :=
  match c.d with
  | none => (st, c)
  | some dstr =>
    if dstr = "" then (st, c)
    else
      match geom.parse dstr with
      | none => (st, c)
      | some p =>
        let flow := c.flowDirection.getD "forward"
        let ms := c.markerStart.getD "none"
        let me := c.markerEnd.getD "none"
        let nr := needsReversal flow ms me
        let len := if nr then geom.plen (geom.rev p) else geom.plen p
        let st1 := if nr && ms != "none" then
            createReversedMarker flipD st (stripMarkerId ms) else st
        let st2 := if nr && me != "none" then
            createReversedMarker flipD st1 (stripMarkerId me) else st1
        let c1 := reconcileCurve (geom.toD (geom.rev p)) c
        let msv := if nr then (if me != "none" then reversedRef me else me) else ms
        let mev := if nr then (if ms != "none" then reversedRef ms else ms) else me
        let delay := (lineDelayMult i c.animationOrder : ℚ) * stagger
        let newStyle := c1.style ++
          [("--length", CssVal.q len), ("--glow-color", CssVal.s color),
           ("--marker-start", CssVal.s msv), ("--marker-end", CssVal.s mev),
           ("animation-delay", CssVal.q delay)]
        let c2 := { c1 with style := newStyle, cls := some clsStr }
        let newMs := if msv != "none" then none else c2.markerStart
        let newMe := if mev != "none" then none else c2.markerEnd
        let c3 := { c2 with markerStart := newMs, markerEnd := newMe }
        (st2, { c3 with stroke := some color, fill := some "none" })

/-- The enumerated line-path loop, threading the animator state. -/
def processLinesCore {P : Type} (geom : Geom P) (flipD : String → String)
    (color : String) (stagger : ℚ) (clsStr : String) :
    AnimState → Nat → List PathElem → AnimState × List PathElem
  | st, _, [] => (st, [])
  | st, i, c :: rest =>
    let r := processLineCore geom flipD color stagger clsStr st i c
    let rr := processLinesCore geom flipD color stagger clsStr r.1 (i + 1) rest
    (rr.1, r.2 :: rr.2)

/-- Duration of the draw animation in the hard-coded no-theme CSS block:
`animation: draw-flow-with-markers 1.5s ease-out forwards`. -/
def animationDurationNoTheme : ℚ := 3/2

/-- Hard-coded constants of `SVGAnimator.process`: stagger `0.3`,
class `"anim-edge neon-glow"`; `color` is the caller argument
(default `"#00ffcc"`). -/
def processLinesNoTheme {P : Type} (geom : Geom P) (flipD : String → String)
    (color : String) (st : AnimState) (ps : List PathElem) :
    AnimState × List PathElem :=
  processLinesCore geom flipD color (3/10) "anim-edge neon-glow" st 0 ps

/-- The `Theme` pydantic model with its field defaults (`themes.py`). -/
structure Theme where
  primary_color : String := "#00ff99"
  background : String := "#1a1a1a"
  edge_style : String := "neon"
  node_style : String := "glass"
  animation_duration : ℚ := 3/2
  stagger_delay : ℚ := 3/10
deriving DecidableEq

/-- Preset `CYBERPUNK`. -/
def CYBERPUNK : Theme :=
  { primary_color := "#00ff99", background := "#1a1a1a",
    edge_style := "neon", node_style := "glass" }

/-- Preset `CORPORATE`. -/
def CORPORATE : Theme :=
  { primary_color := "#2563eb", background := "#ffffff",
    edge_style := "clean", node_style := "solid",
    animation_duration := 1, stagger_delay := 1/5 }

/-- Preset `HAND_DRAWN`. -/
def HAND_DRAWN : Theme :=
  { primary_color := "#374151", background := "#f9fafb",
    edge_style := "hand-drawn", node_style := "outlined",
    animation_duration := 2, stagger_delay := 2/5 }

/-- Edge class chosen by `process_with_theme` from the edge style. -/
def edgeClassThemed (t : Theme) : String :=
  if t.edge_style = "neon" then "anim-edge neon-glow"
  else if t.edge_style = "hand-drawn" then "anim-edge hand-drawn"
  else "anim-edge clean-edge"

/-- Static node class chosen from the node style. -/
def nodeClassStatic (t : Theme) : String :=
  if t.node_style = "glass" then "glass-node"
  else if t.node_style = "outlined" then "outlined-node"
  else "solid-node"

/-- Line-path loop of `SVGAnimator.process_with_theme`. -/
def processLinesThemed {P : Type} (geom : Geom P) (flipD : String → String)
    (t : Theme) (st : AnimState) (ps : List PathElem) :
    AnimState × List PathElem :=
  processLinesCore geom flipD t.primary_color t.stagger_delay (edgeClassThemed t) st 0 ps

/-- Tip delay in `process`: `len(line_paths) * 0.3 + i * 0.1`. -/
def tipDelayNoTheme (numLines i : Nat) : ℚ :=
  (numLines : ℚ) * (3/10) + (i : ℚ) * (1/10)

/-- Tip delay in `process_with_theme`:
`len(line_paths) * stagger + i * stagger * 0.2`. -/
def tipDelayThemed (t : Theme) (numLines i : Nat) : ℚ :=
  (numLines : ℚ) * t.stagger_delay + (i : ℚ) * t.stagger_delay * (1/5)

/-- Shared shape of both arrow-tip path loops. -/
def processTipCore {P : Type} (geom : Geom P) (color : String) (clsStr : String)
    (delay : ℚ) (c : PathElem) : PathElem :=
  match c.d with
  | none => c
  | some dstr =>
    if dstr = "" then c
    else
      match geom.parse dstr with
      | none => c
      | some p =>
        let newStyle := c.style ++
          [("--length", CssVal.q (geom.plen p)), ("--glow-color", CssVal.s color),
           ("animation-delay", CssVal.q delay)]
        let c2 := { c with style := newStyle, cls := some clsStr }
        { c2 with stroke := some color, fill := some "none" }

/-- Enumerated arrow-tip loop of `process`. -/
def processTipsNoTheme {P : Type} (geom : Geom P) (color : String)
    (numLines : Nat) : Nat → List PathElem → List PathElem
  | _, [] => []
  | i, c :: rest =>
    processTipCore geom color "anim-edge neon-glow" (tipDelayNoTheme numLines i) c
      :: processTipsNoTheme geom color numLines (i + 1) rest

/-- Enumerated arrow-tip loop of `process_with_theme`. -/
def processTipsThemed {P : Type} (geom : Geom P) (t : Theme)
    (numLines : Nat) : Nat → List PathElem → List PathElem
  | _, [] => []
  | i, c :: rest =>
    processTipCore geom t.primary_color (edgeClassThemed t)
      (tipDelayThemed t numLines i) c
      :: processTipsThemed geom t numLines (i + 1) rest

/-- Non-path marker element delay in `process`:
`len(line_paths)*0.3 + len(arrow_tip_paths)*0.1 + i*0.05`. -/
def markerElemDelayNoTheme (numLines numTips i : Nat) : ℚ :=
  (numLines : ℚ) * (3/10) + (numTips : ℚ) * (1/10) + (i : ℚ) * (1/20)

/-- Non-path marker element delay in `process_with_theme`:
`len(line_paths)*s + len(arrow_tip_paths)*s*0.2 + i*s*0.1`. -/
def markerElemDelayThemed (t : Theme) (numLines numTips i : Nat) : ℚ :=
  (numLines : ℚ) * t.stagger_delay + (numTips : ℚ) * t.stagger_delay * (1/5)
    + (i : ℚ) * t.stagger_delay * (1/10)

/-- A non-path element nested in a marker gets only a delay and the edge
class (never the node class). -/
def processMarkerElem (clsStr : String) (delay : ℚ) (c : PathElem) : PathElem :=
  let newStyle := c.style ++ [("animation-delay", CssVal.q delay)]
  { c with style := newStyle, cls := some clsStr }

/-- Marker-shape loop of `process`. -/
def processMarkerElemsNoTheme (numLines numTips : Nat) :
    Nat → List PathElem → List PathElem
  | _, [] => []
  | i, c :: rest =>
    processMarkerElem "anim-edge neon-glow"
        (markerElemDelayNoTheme numLines numTips i) c
      :: processMarkerElemsNoTheme numLines numTips (i + 1) rest

/-- Marker-shape loop of `process_with_theme`. -/
def processMarkerElemsThemed (t : Theme) (numLines numTips : Nat) :
    Nat → List PathElem → List PathElem
  | _, [] => []
  | i, c :: rest =>
    processMarkerElem (edgeClassThemed t)
        (markerElemDelayThemed t numLines numTips i) c
      :: processMarkerElemsThemed t numLines numTips (i + 1) rest

/-- Step 3 of `process_with_theme`, one non-marker
rect/circle/ellipse/polygon element: polygons carrying a transform skip
the animation-delay mutation and get the static node class (the
`node_tag == "path"` arm of the skip test cannot fire here — the node list
is built only from rect/circle/ellipse/polygon queries). -/
def processNodeThemed (t : Theme) (i : Nat) (c : PathElem) : PathElem :=
  let delay := (i : ℚ) * t.stagger_delay * (1/2)
  let hasTransform := c.transform.isSome
  let skip := (hasTransform && c.tag == "polygon") || (c.tag == "path" && hasTransform)
  let c1 := if skip then c
    else { c with style := c.style ++ [("animation-delay", CssVal.q delay)] }
  if skip then { c1 with cls := some (nodeClassStatic t) }
  else { c1 with cls := some ("anim-node " ++ nodeClassStatic t) }

/-- Enumerated node loop (step 3). -/
def processNodesThemed (t : Theme) : Nat → List PathElem → List PathElem
  | _, [] => []
  | i, c :: rest => processNodeThemed t i c :: processNodesThemed t (i + 1) rest

/-- Step 4 of `process_with_theme`: node-defining paths (e.g. cylinder
shapes) get the node delay and the animated node class unconditionally —
there is no transform check in this loop. -/
def processNodeShapePathThemed (t : Theme) (i : Nat) (c : PathElem) : PathElem :=
  let newStyle := c.style ++
    [("animation-delay", CssVal.q ((i : ℚ) * t.stagger_delay * (1/2)))]
  { c with style := newStyle, cls := some ("anim-node " ++ nodeClassStatic t) }

/-- Enumerated node-shape-path loop (step 4). -/
def processNodeShapePathsThemed (t : Theme) : Nat → List PathElem → List PathElem
  | _, [] => []
  | i, c :: rest =>
    processNodeShapePathThemed t i c :: processNodeShapePathsThemed t (i + 1) rest

/-- The classified element tree, as partitioned identically by both
processing pipelines (line-edge curves, arrowhead-tip curves, non-path
marker shapes, non-marker node shapes, node-defining curves). -/
structure SvgDoc where
  lines : List PathElem := []
  tips : List PathElem := []
  markerShapes : List PathElem := []
  nodes : List PathElem := []
  nodeShapePaths : List PathElem := []
deriving DecidableEq

/-- `SVGAnimator.process` (no theme): line paths, tip paths and marker
shapes are processed; nodes and node-shape paths are not touched at all. -/
def processNoTheme {P : Type} (geom : Geom P) (flipD : String → String)
    (color : String) (st : AnimState) (doc : SvgDoc) : AnimState × SvgDoc :=
  let lr := processLinesNoTheme geom flipD color st doc.lines
  let newTips := processTipsNoTheme geom color doc.lines.length 0 doc.tips
  let newMs := processMarkerElemsNoTheme doc.lines.length doc.tips.length 0 doc.markerShapes
  (lr.1, { doc with lines := lr.2, tips := newTips, markerShapes := newMs })

/-- `SVGAnimator.process_with_theme`: additionally processes node shapes
(step 3) and node-defining paths (step 4). -/
def processThemed {P : Type} (geom : Geom P) (flipD : String → String)
    (t : Theme) (st : AnimState) (doc : SvgDoc) : AnimState × SvgDoc :=
  let lr := processLinesThemed geom flipD t st doc.lines
  let newTips := processTipsThemed geom t doc.lines.length 0 doc.tips
  let newMs := processMarkerElemsThemed t doc.lines.length doc.tips.length 0 doc.markerShapes
  let newNodes := processNodesThemed t 0 doc.nodes
  let newNsp := processNodeShapePathsThemed t 0 doc.nodeShapePaths
  let newDoc : SvgDoc :=
    { lines := lr.2, tips := newTips, markerShapes := newMs,
      nodes := newNodes, nodeShapePaths := newNsp }
  (lr.1, newDoc)

/-- Value of a declaration appended to an element's style attribute. -/
def styleVal (c : PathElem) (k : String) : Option CssVal :=
  (c.style.find? fun p => p.1 = k).map fun p => p.2

/-- Concrete geometry instance used for closed runs: a drawing string is
its own parsed path, the string `"bad"` fails to parse, and reversal tags
the string. -/
def geomFix : Geom String :=
  { parse := fun s => if s = "bad" then none else some s,
    plen := fun _ => 1, rev := id, toD := fun s => s ++ "_rev" }

/-- A line-edge curve whose only marker reference names a marker id that
is absent from the defs container. -/
def curveMissingMarker : PathElem :=
  { d := some "M0", markerStart := some "url(#missing)" }

/-- A node-defining curve carrying a geometric transform. -/
def transformedNodePath : PathElem :=
  { tag := "path", transform := some "translate(1,2)" }

/-- A polygon carrying a geometric transform. -/
def transformedPolygon : PathElem :=
  { tag := "polygon", transform := some "translate(1,2)" }

/-- A document with one line-edge curve (semantic order 0) and one
arrowhead-tip curve. -/
def docOneLine : SvgDoc :=
  { lines := [{ d := some "M0", animationOrder := some 0 }],
    tips := [{ d := some "T0" }] }

/-! ### Invariant vocabulary used by the theorems -/

/-- The multiset of orders already assigned by the traversal. -/
def vals (l : List (Option Nat)) : List Nat := l.filterMap id

/-- Source node of the `i`-th declared edge. -/
def srcAt (edges : List EdgeSemantics) (i : Nat) : String :=
  (edges.getD i default).source

/-- A curve whose drawing-command string is present and nonempty but
cannot be parsed/measured by the geometry collaborator (the exception the
per-element handler catches). -/
def FailsGeom {P : Type} (geom : Geom P) (c : PathElem) : Prop :=
  ∃ dstr, c.d = some dstr ∧ dstr ≠ "" ∧ geom.parse dstr = none

/-- Wavefront bookkeeping invariant: the assigned orders are exactly
`0..ord-1`, and assigned + unassigned counts add up to the edge count. -/
def OrderInv (N : Nat) (assigned : List (Option Nat)) (ord : Nat) : Prop :=
  List.Perm (vals assigned) (List.range ord)
    ∧ ord + countNone assigned = N ∧ assigned.length = N

/-- Declaration-order invariant for edges sharing a source node: among
already-assigned edges of one node the orders increase with declaration
index, and an unassigned edge never precedes an assigned one. -/
def SrcInv (edges : List EdgeSemantics) (assigned : List (Option Nat)) : Prop :=
  (∀ i j a b, i < j → srcAt edges i = srcAt edges j →
    assigned.get? i = some (some a) → assigned.get? j = some (some b) → a < b)
  ∧ (∀ i j b, i < j → srcAt edges i = srcAt edges j →
    assigned.get? i = some none → assigned.get? j ≠ some (some b))

/-! ## Helper lemmas -/

theorem injectMetadata_length (recs : List EdgeSemantics) :
    ∀ (ps : List InjPath) (i : Nat), (injectMetadata recs ps i).length = ps.length := by
  intro ps
  induction ps with
  | nil => intro i; rfl
  | cons p rest ih =>
    intro i
    by_cases h : p.inMarker
    · simp [injectMetadata, h, ih]
    · simp [injectMetadata, h, ih]

theorem injectMetadata_marker (recs : List EdgeSemantics) :
    ∀ (ps : List InjPath) (i idx : Nat) (p : InjPath),
      ps.get? idx = some p → p.inMarker = true →
      (injectMetadata recs ps i).get? idx = some p := by
  intro ps
  induction ps with
  | nil => intro i idx p h _; simp at h
  | cons q rest ih =>
    intro i idx p h hm
    cases idx with
    | zero =>
      simp only [List.get?_cons_zero, Option.some.injEq] at h
      subst h
      simp [injectMetadata, hm]
    | succ k =>
      simp only [List.get?_cons_succ] at h
      by_cases hq : q.inMarker
      · simpa [injectMetadata, hq] using ih i k p h hm
      · simpa [injectMetadata, hq] using ih (i + 1) k p h hm

theorem inMarker_addSemanticAttributes (p : InjPath) (e : EdgeSemantics) :
    (addSemanticAttributes p e).inMarker = p.inMarker := rfl

theorem injectMetadata_filter (recs : List EdgeSemantics) :
    ∀ (ps : List InjPath) (i : Nat),
      (injectMetadata recs ps i).filter (fun p => !p.inMarker) =
        ((ps.filter (fun p => !p.inMarker)).enumFrom i).map
          (fun q => if q.1 < recs.length then
            addSemanticAttributes q.2 (recs.getD q.1 default) else q.2) := by
  intro ps
  induction ps with
  | nil => intro i; rfl
  | cons q rest ih =>
    intro i
    by_cases hq : q.inMarker
    · simp [injectMetadata, hq, List.filter_cons, ih i]
    · have hinj : ∀ x : InjPath, x = (if i < recs.length then
          addSemanticAttributes q (recs.getD i default) else q) → x.inMarker = false := by
        intro x hx
        subst hx
        split
        · rw [inMarker_addSemanticAttributes]; simp [hq]
        · simp [hq]
      simp only [injectMetadata, Bool.not_eq_true] at hq ⊢
      simp only [hq, Bool.false_eq_true, if_false, List.filter_cons, hinj _ rfl,
        Bool.not_false, if_true, List.enumFrom, List.map_cons, ih (i + 1)]

/-! ## C10 -/

/-- C10: semantic-attribute injection pairs records to curves purely by
position — the i-th non-marker path in document order receives the
attributes of the i-th extracted record, marker paths pass through
untouched, surplus curves stay without semantic attributes, surplus
records are silently dropped, and the walk is total (no error). -/
theorem C10_positional_injection (recs : List EdgeSemantics) (ps : List InjPath) :
    (injectAll recs ps).length = ps.length
    ∧ (∀ idx p, ps.get? idx = some p → p.inMarker = true →
        (injectAll recs ps).get? idx = some p)
    ∧ (injectAll recs ps).filter (fun p => !p.inMarker) =
        ((ps.filter (fun p => !p.inMarker)).enum).map
          (fun q => if q.1 < recs.length then
            addSemanticAttributes q.2 (recs.getD q.1 default) else q.2) := by
  refine ⟨injectMetadata_length recs ps 0,
    fun idx p h hm => injectMetadata_marker recs ps 0 idx p h hm, ?_⟩
  have h := injectMetadata_filter recs ps 0
  simpa [injectAll, List.enum] using h

/-- Witness for C10 at a concrete input: a lone marker path is returned
unchanged. -/
theorem C10_witness :
    (injectAll [] [⟨true, []⟩]).get? 0 = some ⟨true, []⟩ :=
  (C10_positional_injection [] [⟨true, []⟩]).2.1 0 ⟨true, []⟩ rfl rfl

/-! ## C7 -/

/-- C7 (divergence witness): in themed node processing a transformed
polygon is excluded from the animation-delay mutation and receives the
static node class, but a node-shape curve carrying a transform still
receives the animation-delay and the animated node class — the
`node_tag == "path"` skip branch sits in the loop that never sees paths,
and step 4 has no transform check. -/
theorem C7_transformed_nodeshape_curve_still_animated :
    processNodeShapePathsThemed CYBERPUNK 0 [transformedNodePath] =
      [{ transformedNodePath with
          style := [("animation-delay", CssVal.q 0)],
          cls := some "anim-node glass-node" }]
    ∧ processNodesThemed CYBERPUNK 0 [transformedPolygon] =
      [{ transformedPolygon with cls := some "glass-node" }] := by
  constructor
  · simp [processNodeShapePathsThemed, processNodeShapePathThemed, nodeClassStatic,
      CYBERPUNK, transformedNodePath]
  · simp [processNodesThemed, processNodeThemed, nodeClassStatic,
      CYBERPUNK, transformedPolygon]

/-! ## C8 -/

/-- C8 (counterexample): with one line-edge curve (semantic order 0,
so delay 0) and one arrowhead-tip curve, the tip's delay is 0.3 s while
the line finishes drawing at 0 + 1.5 s — the tip does **not** wait for the
owning line's animation to finish. -/
theorem C8_counterexample_tip_before_line_finishes :
    styleVal (((processNoTheme geomFix id "#00ffcc" {} docOneLine).2.tips).headD {})
        "animation-delay" = some (CssVal.q (3/10))
    ∧ styleVal (((processNoTheme geomFix id "#00ffcc" {} docOneLine).2.lines).headD {})
        "animation-delay" = some (CssVal.q 0)
    ∧ ¬((0 : ℚ) + animationDurationNoTheme ≤ 3/10) := by
  refine ⟨?_, ?_, ?_⟩
  · simp [processNoTheme, processLinesNoTheme, processLinesCore, processLineCore,
      processTipsNoTheme, processTipCore, geomFix, docOneLine, styleVal,
      tipDelayNoTheme, needsReversal, reconcileCurve, lineDelayMult, List.find?]
  · simp [processNoTheme, processLinesNoTheme, processLinesCore, processLineCore,
      processTipsNoTheme, processTipCore, geomFix, docOneLine, styleVal,
      tipDelayNoTheme, needsReversal, reconcileCurve, lineDelayMult, List.find?]
  · simp [animationDurationNoTheme]
    norm_num

/-- C8 (amended): every tip delay equals
`(number of line curves) × 0.3 + i × 0.1`; whenever each line's delay
multiplier stays below the line count (as the contiguous injector orders
do), each tip delay exceeds every line-edge delay by at least one stagger
— but nothing places it after the line's delay *plus duration*. -/
theorem C8_amended_tip_after_line_delays (N i j : Nat) (ao : Option Int)
    (h : lineDelayMult j ao < (N : Int)) :
    (lineDelayMult j ao : ℚ) * (3/10) + 3/10 ≤ tipDelayNoTheme N i := by
  have h1 : (lineDelayMult j ao : ℚ) ≤ (N : ℚ) - 1 := by
    have h2 : lineDelayMult j ao ≤ (N : Int) - 1 := by omega
    calc (lineDelayMult j ao : ℚ) ≤ ((N : Int) - 1 : Int) := by exact_mod_cast h2
      _ = (N : ℚ) - 1 := by push_cast; ring
  have h2 : (0 : ℚ) ≤ (i : ℚ) := by positivity
  unfold tipDelayNoTheme
  nlinarith [h1, h2]

/-- Witness for the amended C8 at a concrete input. -/
theorem C8_amended_witness :
    lineDelayMult 0 (some 0) < (1 : Int)
    ∧ (lineDelayMult 0 (some 0) : ℚ) * (3/10) + 3/10 ≤ tipDelayNoTheme 1 0 :=
  ⟨by decide, C8_amended_tip_after_line_delays 1 0 0 (some 0) (by decide)⟩

/-! ## C9 -/

theorem processLinesCore_length {P : Type} (geom : Geom P) (flipD : String → String)
    (color : String) (stagger : ℚ) (clsStr : String) :
    ∀ (ps : List PathElem) (st : AnimState) (i : Nat),
      (processLinesCore geom flipD color stagger clsStr st i ps).2.length = ps.length := by
  intro ps
  induction ps with
  | nil => intro st i; rfl
  | cons c rest ih => intro st i; simp [processLinesCore, ih]

/-- C9 (counterexample): on a concrete document the no-theme output
differs from the themed output under **every** predefined preset (the
default color `#00ffcc` matches no preset's primary color). -/
theorem C9_counterexample_no_preset_equivalent :
    processNoTheme geomFix id "#00ffcc" {} docOneLine ≠
      processThemed geomFix id CYBERPUNK {} docOneLine
    ∧ processNoTheme geomFix id "#00ffcc" {} docOneLine ≠
      processThemed geomFix id CORPORATE {} docOneLine
    ∧ processNoTheme geomFix id "#00ffcc" {} docOneLine ≠
      processThemed geomFix id HAND_DRAWN {} docOneLine := by
  have h1 : ((processNoTheme geomFix id "#00ffcc" {} docOneLine).2.lines.headD {}).stroke
      = some "#00ffcc" := by
    simp [processNoTheme, processLinesNoTheme, processLinesCore, processLineCore,
      geomFix, docOneLine, needsReversal, reconcileCurve]
  refine ⟨?_, ?_, ?_⟩ <;>
  · intro h
    have h2 := congrArg (fun r => ((r.2.lines.headD {}).stroke : Option String)) h
    dsimp only at h2
    rw [h1] at h2
    simp [processThemed, processLinesThemed, processLinesCore, processLineCore,
      geomFix, docOneLine, needsReversal, reconcileCurve,
      CYBERPUNK, CORPORATE, HAND_DRAWN] at h2

/-- C9 (amended): absence of a configuration never fails — the no-theme
mode is total, processes every line-edge curve, and leaves node shapes
untouched; it uses a hard-coded variant whose edge class and line stagger
match `CYBERPUNK`, but its tip stagger differs from `CYBERPUNK`'s (and its
default color `#00ffcc` matches no preset, per the counterexample). -/
theorem C9_amended_hardcoded_variant {P : Type} (geom : Geom P)
    (flipD : String → String) (color : String) (st : AnimState) (doc : SvgDoc) :
    ((processNoTheme geom flipD color st doc).2.lines).length = doc.lines.length
    ∧ (processNoTheme geom flipD color st doc).2.nodes = doc.nodes
    ∧ (processNoTheme geom flipD color st doc).2.nodeShapePaths = doc.nodeShapePaths
    ∧ "anim-edge neon-glow" = edgeClassThemed CYBERPUNK
    ∧ (3 : ℚ)/10 = CYBERPUNK.stagger_delay
    ∧ (∀ N i : Nat, 1 ≤ i → tipDelayNoTheme N i ≠ tipDelayThemed CYBERPUNK N i) := by
  refine ⟨processLinesCore_length geom flipD color (3/10) "anim-edge neon-glow"
      doc.lines st 0, rfl, rfl, rfl, by norm_num [CYBERPUNK], ?_⟩
  intro N i hi heq
  have hi1 : (1 : ℚ) ≤ (i : ℚ) := by exact_mod_cast hi
  simp only [tipDelayNoTheme, tipDelayThemed, CYBERPUNK] at heq
  nlinarith [heq, hi1]

/-- Witness for the amended C9: the tip staggers concretely differ. -/
theorem C9_amended_witness :
    (1 : Nat) ≤ 1 ∧ tipDelayNoTheme 0 1 ≠ tipDelayThemed CYBERPUNK 0 1 :=
  ⟨le_refl 1,
    (C9_amended_hardcoded_variant geomFix id "#00ffcc" {} docOneLine).2.2.2.2.2 0 1
      (le_refl 1)⟩

/-! ## C5 -/

/-- C5 (counterexample): a forward line-edge curve whose `marker-start`
references the absent marker id `missing` is reversed; the mirroring step
is indeed a no-op on the defs container, but the curve's surviving marker
reference (the custom property restored by the keyframe) names the derived
`missing_reversed` id, not the original `missing`. -/
theorem C5_counterexample_dangling_reversed_ref :
    (processLinesNoTheme geomFix id "#00ffcc" {} [curveMissingMarker]).1 = ({} : AnimState)
    ∧ styleVal (((processLinesNoTheme geomFix id "#00ffcc" {} [curveMissingMarker]).2).headD {})
        "--marker-end" = some (CssVal.s "url(#missing_reversed)")
    ∧ "url(#missing_reversed)" ≠ "url(#missing)" := by
  refine ⟨?_, ?_, by decide⟩
  · simp [processLinesNoTheme, processLinesCore, processLineCore, geomFix,
      curveMissingMarker, needsReversal, reconcileCurve, createReversedMarker,
      stripMarkerId, replaceSub, replaceSubF, listStarts]
  · simp [processLinesNoTheme, processLinesCore, processLineCore, geomFix,
      curveMissingMarker, needsReversal, reconcileCurve, createReversedMarker,
      stripMarkerId, replaceSub, replaceSubF, listStarts, styleVal, reversedRef,
      List.find?]

/-- C5 (amended): with the referenced marker id missing from the defs
container, `_create_reversed_marker` changes nothing, yet the reversal
step still rewrites a triggering curve's marker reference to the derived
`<id>_reversed` name, leaving it dangling. -/
theorem C5_amended_noop_but_renamed (flipD : String → String) (st : AnimState)
    (mid : String) (hfind : st.defs.find? (fun m => m.id = mid) = none) :
    createReversedMarker flipD st mid = st
    ∧ ∀ (newD : String) (c : PathElem),
        c.flowDirection.getD "forward" = "forward" →
        c.markerStart.getD "none" ≠ "none" →
        c.markerEnd.getD "none" = "none" →
        (reconcileCurve newD c).markerEnd =
          some (reversedRef (c.markerStart.getD "none")) := by
  constructor
  · unfold createReversedMarker
    rw [hfind]
    simp
  · intro newD c hf hms hme
    have hb : needsReversal "forward"
        (c.markerStart.getD "none") (c.markerEnd.getD "none") = true := by
      simp [needsReversal, hms, hme]
    simp [reconcileCurve, hf, hb, hms]

/-- Witness for the amended C5 at a concrete state. -/
theorem C5_amended_witness :
    (({} : AnimState).defs.find? (fun m => m.id = "missing") = none)
    ∧ createReversedMarker id ({} : AnimState) "missing" = ({} : AnimState) :=
  ⟨rfl, (C5_amended_noop_but_renamed id {} "missing" rfl).1⟩

/-! ## C2 -/

theorem reversedRef_ne_none (s : String) : reversedRef s ≠ "none" := by
  intro h
  have hlen := congrArg String.length h
  rw [reversedRef] at hlen
  rw [String.length_append, String.length_append] at hlen
  have e1 : ("url(#" : String).length = 5 := rfl
  have e2 : ("_reversed)" : String).length = 10 := rfl
  have e3 : ("none" : String).length = 4 := rfl
  rw [e1, e2, e3] at hlen
  omega

theorem needsReversal_true_iff (flow ms me : String) :
    needsReversal flow ms me = true ↔ needsReversalSpec flow ms me := by
  have hfb : ("forward" : String) ≠ "backward" := by decide
  unfold needsReversal needsReversalSpec
  by_cases h1 : flow = "forward"
  · subst h1
    simp [hfb, Bool.and_eq_true, bne_iff_ne, beq_iff_eq]
  · by_cases h2 : flow = "backward"
    · subst h2
      simp [hfb.symm, Bool.and_eq_true, bne_iff_ne, beq_iff_eq]
    · simp [h1, h2]

/-- C2: a line-edge curve is modified by the reconciliation step exactly
when the spec's predicate holds (Forward with a marker only at the start,
or Backward with a marker only at the end); when it triggers, the curve's
drawing string is replaced by the reversed one; and re-running
reconciliation on the result changes nothing, so `Bidirectional` and
already-consistent curves are left untouched. -/
theorem C2_reconciliation (newD newD' : String) (c : PathElem) :
    ((reconcileCurve newD c = c) ↔
      ¬ needsReversalSpec (c.flowDirection.getD "forward") (c.markerStart.getD "none")
        (c.markerEnd.getD "none"))
    ∧ reconcileCurve newD' (reconcileCurve newD c) = reconcileCurve newD c
    ∧ (needsReversalSpec (c.flowDirection.getD "forward") (c.markerStart.getD "none")
        (c.markerEnd.getD "none") → (reconcileCurve newD c).d = some newD) := by
  by_cases hb : needsReversal (c.flowDirection.getD "forward") (c.markerStart.getD "none")
      (c.markerEnd.getD "none") = true
  · have hspec := (needsReversal_true_iff _ _ _).mp hb
    have hD : (reconcileCurve newD c).d = some newD := by
      simp [reconcileCurve, hb]
    have hFlow : (reconcileCurve newD c).flowDirection = c.flowDirection := by
      simp [reconcileCurve, hb]
    rcases hspec with ⟨hf, hms, hme⟩ | ⟨hf, hme, hms⟩
    · -- Forward with marker only at the start
      have hMe : (reconcileCurve newD c).markerEnd =
          some (reversedRef (c.markerStart.getD "none")) := by
        simp only [reconcileCurve, hb, eq_self_iff_true, if_true]
        simp [hms]
      have hMs : (reconcileCurve newD c).markerStart = some "none" := by
        simp only [reconcileCurve, hb, eq_self_iff_true, if_true]
        simp [hme]
      have hb2 : needsReversal ((reconcileCurve newD c).flowDirection.getD "forward")
          ((reconcileCurve newD c).markerStart.getD "none")
          ((reconcileCurve newD c).markerEnd.getD "none") = false := by
        rw [hFlow, hMs, hMe, hf]
        simp [needsReversal]
      refine ⟨?_, ?_, fun _ => hD⟩
      · apply iff_of_false
        · intro heq
          have hpe : (reconcileCurve newD c).markerEnd = c.markerEnd := by rw [heq]
          rw [hMe] at hpe
          cases hcme : c.markerEnd with
          | none => rw [hcme] at hpe; simp at hpe
          | some v =>
            rw [hcme] at hpe
            have hv : v = "none" := by
              rw [hcme] at hme
              simpa using hme
            rw [hv] at hpe
            simp at hpe
            exact reversedRef_ne_none _ hpe
        · intro hn
          exact hn (Or.inl ⟨hf, hms, hme⟩)
      · generalize hR : reconcileCurve newD c = R at hb2 ⊢
        simp [reconcileCurve, hb2]
    · -- Backward with marker only at the end
      have hMs : (reconcileCurve newD c).markerStart =
          some (reversedRef (c.markerEnd.getD "none")) := by
        simp only [reconcileCurve, hb, eq_self_iff_true, if_true]
        simp [hme]
      have hMe : (reconcileCurve newD c).markerEnd = some "none" := by
        simp only [reconcileCurve, hb, eq_self_iff_true, if_true]
        simp [hms]
      have hb2 : needsReversal ((reconcileCurve newD c).flowDirection.getD "forward")
          ((reconcileCurve newD c).markerStart.getD "none")
          ((reconcileCurve newD c).markerEnd.getD "none") = false := by
        rw [hFlow, hMs, hMe, hf]
        simp [needsReversal]
      refine ⟨?_, ?_, fun _ => hD⟩
      · apply iff_of_false
        · intro heq
          have hpe : (reconcileCurve newD c).markerStart = c.markerStart := by rw [heq]
          rw [hMs] at hpe
          cases hcms : c.markerStart with
          | none => rw [hcms] at hpe; simp at hpe
          | some v =>
            rw [hcms] at hpe
            have hv : v = "none" := by
              rw [hcms] at hms
              simpa using hms
            rw [hv] at hpe
            simp at hpe
            exact reversedRef_ne_none _ hpe
        · intro hn
          exact hn (Or.inr ⟨hf, hme, hms⟩)
      · generalize hR : reconcileCurve newD c = R at hb2 ⊢
        simp [reconcileCurve, hb2]
  · have hnspec : ¬ needsReversalSpec (c.flowDirection.getD "forward")
        (c.markerStart.getD "none") (c.markerEnd.getD "none") :=
      fun hs => hb ((needsReversal_true_iff _ _ _).mpr hs)
    have hr : reconcileCurve newD c = c := by
      simp [reconcileCurve, hb]
    have hr' : reconcileCurve newD' c = c := by
      simp [reconcileCurve, hb]
    exact ⟨iff_of_true hr hnspec, by rw [hr, hr'], fun hs => absurd hs hnspec⟩

/-- Witness for C2's trigger clause at a concrete curve. -/
theorem C2_witness :
    needsReversalSpec (curveMissingMarker.flowDirection.getD "forward")
      (curveMissingMarker.markerStart.getD "none")
      (curveMissingMarker.markerEnd.getD "none")
    ∧ (reconcileCurve "R" curveMissingMarker).d = some "R" :=
  ⟨Or.inl ⟨rfl, by decide, rfl⟩,
    (C2_reconciliation "R" "R" curveMissingMarker).2.2 (Or.inl ⟨rfl, by decide, rfl⟩)⟩

/-! ## C3 -/

set_option maxRecDepth 10000 in
/-- C3 (counterexample): the records extracted from `"A --> B; B --> C"`
carry edge kind `dependency`, not `arrow` — the class-diagram dependency
pattern uses the same `-->` literal as the flowchart arrow pattern and is
tried first, so it shadows `arrow` for every plain `-->` statement. -/
theorem C3_counterexample_kind_is_dependency :
    (parseEdgeSemantics "A --> B; B --> C").map (fun e => e.edge_type) =
      ["dependency", "dependency"]
    ∧ ("dependency" : String) ≠ "arrow" := by
  constructor
  · decide
  · decide

set_option maxRecDepth 10000 in
/-- C3 (amended): parsing `"A --> B; B --> C"` produces exactly two
records, both `forward` with edge kind `dependency`, the record for A→B
with order 0 and the record for B→C with order 1. -/
theorem C3_amended_two_dependency_records :
    parseEdgeSemantics "A --> B; B --> C" =
      [{ source := "A", target := "B", direction := "forward",
         edge_type := "dependency", order := 0 },
       { source := "B", target := "C", direction := "forward",
         edge_type := "dependency", order := 1 }] := by
  decide

/-! ## C6 -/

theorem processLineCore_fail {P : Type} (geom : Geom P) (flipD : String → String)
    (color : String) (stagger : ℚ) (clsStr : String) (st : AnimState) (i : Nat)
    (c : PathElem) (hc : FailsGeom geom c) :
    processLineCore geom flipD color stagger clsStr st i c = (st, c) := by
  obtain ⟨dstr, hd, hne, hp⟩ := hc
  simp [processLineCore, hd, hne, hp]

theorem processLinesCore_fail_get {P : Type} (geom : Geom P) (flipD : String → String)
    (color : String) (stagger : ℚ) (clsStr : String) :
    ∀ (ps : List PathElem) (st : AnimState) (i k : Nat) (c : PathElem),
      ps.get? k = some c → FailsGeom geom c →
      (processLinesCore geom flipD color stagger clsStr st i ps).2.get? k = some c := by
  intro ps
  induction ps with
  | nil => intro st i k c hk _; simp at hk
  | cons q rest ih =>
    intro st i k c hk hc
    cases k with
    | zero =>
      simp only [List.get?_cons_zero, Option.some.injEq] at hk
      subst hk
      simp [processLinesCore, processLineCore_fail geom flipD color stagger clsStr st i _ hc]
    | succ k' =>
      simp only [List.get?_cons_succ] at hk
      simp only [processLinesCore, List.get?_cons_succ]
      exact ih _ (i + 1) k' c hk hc

theorem processLinesCore_fail_iso {P : Type} (geom : Geom P) (flipD : String → String)
    (color : String) (stagger : ℚ) (clsStr : String) :
    ∀ (ps : List PathElem) (st : AnimState) (i k : Nat) (c c' : PathElem),
      ps.get? k = some c → FailsGeom geom c → FailsGeom geom c' →
      (processLinesCore geom flipD color stagger clsStr st i (ps.set k c')).1 =
        (processLinesCore geom flipD color stagger clsStr st i ps).1
      ∧ ∀ j, j ≠ k →
        (processLinesCore geom flipD color stagger clsStr st i (ps.set k c')).2.get? j =
          (processLinesCore geom flipD color stagger clsStr st i ps).2.get? j := by
  intro ps
  induction ps with
  | nil => intro st i k c c' hk _ _; simp at hk
  | cons q rest ih =>
    intro st i k c c' hk hc hc'
    cases k with
    | zero =>
      simp only [List.get?_cons_zero, Option.some.injEq] at hk
      subst hk
      constructor
      · simp [processLinesCore, List.set_cons_zero,
          processLineCore_fail geom flipD color stagger clsStr st i _ hc,
          processLineCore_fail geom flipD color stagger clsStr st i c' hc']
      · intro j hj
        cases j with
        | zero => exact absurd rfl hj
        | succ j' =>
          simp [processLinesCore, List.set_cons_zero,
            processLineCore_fail geom flipD color stagger clsStr st i _ hc,
            processLineCore_fail geom flipD color stagger clsStr st i c' hc']
    | succ k' =>
      simp only [List.get?_cons_succ] at hk
      have step := ih (processLineCore geom flipD color stagger clsStr st i q).1
        (i + 1) k' c c' hk hc hc'
      constructor
      · simpa [processLinesCore, List.set_cons_succ] using step.1
      · intro j hj
        cases j with
        | zero => simp [processLinesCore, List.set_cons_succ]
        | succ j' =>
          have hj' : j' ≠ k' := fun h => hj (by rw [h])
          simpa [processLinesCore, List.set_cons_succ] using step.2 j' hj'

/-- C6: a curve whose drawing string cannot be parsed or measured is left
with all its attributes exactly as they were, the animator state is
unaffected by it, and every other element of the list is processed exactly
as before — in both the no-theme and the themed pipeline. -/
theorem C6_local_failure_isolation {P : Type} (geom : Geom P) (flipD : String → String)
    (color : String) (t : Theme) (st : AnimState) (ps : List PathElem)
    (k : Nat) (c c' : PathElem)
    (hk : ps.get? k = some c) (hc : FailsGeom geom c) (hc' : FailsGeom geom c') :
    ((processLinesNoTheme geom flipD color st ps).2.length = ps.length
      ∧ (processLinesNoTheme geom flipD color st ps).2.get? k = some c
      ∧ (processLinesNoTheme geom flipD color st (ps.set k c')).1 =
          (processLinesNoTheme geom flipD color st ps).1
      ∧ ∀ j, j ≠ k →
          (processLinesNoTheme geom flipD color st (ps.set k c')).2.get? j =
            (processLinesNoTheme geom flipD color st ps).2.get? j)
    ∧ ((processLinesThemed geom flipD t st ps).2.length = ps.length
      ∧ (processLinesThemed geom flipD t st ps).2.get? k = some c
      ∧ (processLinesThemed geom flipD t st (ps.set k c')).1 =
          (processLinesThemed geom flipD t st ps).1
      ∧ ∀ j, j ≠ k →
          (processLinesThemed geom flipD t st (ps.set k c')).2.get? j =
            (processLinesThemed geom flipD t st ps).2.get? j) := by
  constructor
  · exact ⟨processLinesCore_length geom flipD color (3/10) "anim-edge neon-glow" ps st 0,
      processLinesCore_fail_get geom flipD color (3/10) "anim-edge neon-glow"
        ps st 0 k c hk hc,
      (processLinesCore_fail_iso geom flipD color (3/10) "anim-edge neon-glow"
        ps st 0 k c c' hk hc hc').1,
      (processLinesCore_fail_iso geom flipD color (3/10) "anim-edge neon-glow"
        ps st 0 k c c' hk hc hc').2⟩
  · exact ⟨processLinesCore_length geom flipD t.primary_color t.stagger_delay
        (edgeClassThemed t) ps st 0,
      processLinesCore_fail_get geom flipD t.primary_color t.stagger_delay
        (edgeClassThemed t) ps st 0 k c hk hc,
      (processLinesCore_fail_iso geom flipD t.primary_color t.stagger_delay
        (edgeClassThemed t) ps st 0 k c c' hk hc hc').1,
      (processLinesCore_fail_iso geom flipD t.primary_color t.stagger_delay
        (edgeClassThemed t) ps st 0 k c c' hk hc hc').2⟩

/-- Witness for C6 at a concrete input: the unparseable curve `"bad"`. -/
theorem C6_witness :
    (processLinesNoTheme geomFix id "#00ffcc" {} [{ d := some "bad" }]).2.get? 0 =
      some { d := some "bad" } :=
  (C6_local_failure_isolation geomFix id "#00ffcc" CYBERPUNK {}
      [{ d := some "bad" }] 0 { d := some "bad" } { d := some "bad", tag := "x" }
      rfl ⟨"bad", rfl, by decide, rfl⟩ ⟨"bad", rfl, by decide, rfl⟩).1.2.1

/-! ## Wavefront bookkeeping lemmas (towards C1 and C4) -/

theorem countNone_set_some {l : List (Option Nat)} {idx : Nat}
    (h : l.get? idx = some none) (v : Nat) :
    countNone (l.set idx (some v)) + 1 = countNone l := by
  induction l generalizing idx with
  | nil => simp at h
  | cons hd tl ih =>
    cases idx with
    | zero =>
      simp only [List.get?_cons_zero, Option.some.injEq] at h
      subst h
      simp [countNone, List.countP_cons]
    | succ k =>
      simp only [List.get?_cons_succ] at h
      have := ih h
      cases hd with
      | none => simpa [countNone, List.countP_cons] using this
      | some _ => simpa [countNone, List.countP_cons] using this

theorem vals_set_perm {l : List (Option Nat)} {idx : Nat}
    (h : l.get? idx = some none) (v : Nat) :
    List.Perm (vals (l.set idx (some v))) (v :: vals l) := by
  induction l generalizing idx with
  | nil => simp at h
  | cons hd tl ih =>
    cases idx with
    | zero =>
      simp only [List.get?_cons_zero, Option.some.injEq] at h
      subst h
      simp [vals]
    | succ k =>
      simp only [List.get?_cons_succ] at h
      cases hd with
      | none =>
        simpa [vals] using ih h
      | some a =>
        simp only [vals, List.set_cons_succ, List.filterMap_cons, id] at *
        exact ((ih h).cons a).trans (List.Perm.swap v a _)

theorem mem_vals_of_get? {l : List (Option Nat)} {i a : Nat}
    (h : l.get? i = some (some a)) : a ∈ vals l := by
  have hm : some a ∈ l := List.get?_mem h
  exact List.mem_filterMap.mpr ⟨some a, hm, rfl⟩

theorem vals_replicate_none (n : Nat) : vals (List.replicate n none) = [] := by
  induction n with
  | zero => rfl
  | succ k ih => simpa [vals, List.replicate_succ, List.filterMap_cons] using ih

theorem countNone_replicate (n : Nat) : countNone (List.replicate n none) = n := by
  induction n with
  | zero => rfl
  | succ k ih => simpa [countNone, List.replicate_succ, List.countP_cons] using ih

theorem replicate_none_no_some {n i b : Nat} :
    (List.replicate n (none : Option Nat)).get? i ≠ some (some b) := by
  intro h
  have hm := List.get?_mem h
  exact Option.noConfusion (List.eq_of_mem_replicate hm)

theorem mem_edgeGraphIdx {edges : List EdgeSemantics} {n : String} {i : Nat} :
    i ∈ edgeGraphIdx edges n ↔ i < edges.length ∧ srcAt edges i = n := by
  simp [edgeGraphIdx, List.mem_filter, List.mem_range, srcAt]

theorem edgeGraphIdx_pairwise (edges : List EdgeSemantics) (n : String) :
    (edgeGraphIdx edges n).Pairwise (· < ·) :=
  (List.pairwise_lt_range edges.length).sublist (List.filter_sublist _)

theorem leftoverPass_length : ∀ (l : List (Option Nat)) (ord : Nat),
    (leftoverPass l ord).length = l.length := by
  intro l
  induction l with
  | nil => intro ord; rfl
  | cons hd tl ih =>
    intro ord
    cases hd with
    | none => simp [leftoverPass, ih]
    | some k => simp [leftoverPass, ih]

theorem leftoverPass_perm : ∀ (l : List (Option Nat)) (ord : Nat),
    List.Perm (leftoverPass l ord) (vals l ++ List.range' ord (countNone l)) := by
  intro l
  induction l with
  | nil => intro ord; simp [leftoverPass, vals, countNone]
  | cons hd tl ih =>
    intro ord
    cases hd with
    | some k =>
      simpa [leftoverPass, vals, countNone, List.countP_cons, List.filterMap_cons]
        using (ih ord).cons k
    | none =>
      have h1 : List.Perm (ord :: leftoverPass tl (ord + 1))
          (ord :: (vals tl ++ List.range' (ord + 1) (countNone tl))) :=
        (ih (ord + 1)).cons ord
      have h2 : vals (none :: tl) ++ List.range' ord (countNone (none :: tl)) =
          vals tl ++ (ord :: List.range' (ord + 1) (countNone tl)) := by
        simp [vals, countNone, List.countP_cons, List.filterMap_cons, List.range'_succ]
      rw [leftoverPass, h2]
      exact h1.trans List.perm_middle.symm

theorem leftoverPass_get_some : ∀ (l : List (Option Nat)) (ord i k : Nat),
    l.get? i = some (some k) → (leftoverPass l ord).get? i = some k := by
  intro l
  induction l with
  | nil => intro ord i k h; simp at h
  | cons hd tl ih =>
    intro ord i k h
    cases i with
    | zero =>
      simp only [List.get?_cons_zero, Option.some.injEq] at h
      subst h
      simp [leftoverPass]
    | succ i' =>
      simp only [List.get?_cons_succ] at h
      cases hd with
      | none => simpa [leftoverPass] using ih (ord + 1) i' k h
      | some a => simpa [leftoverPass] using ih ord i' k h

theorem leftoverPass_ge : ∀ (l : List (Option Nat)) (ord i : Nat),
    l.get? i = some none →
    ∃ k, (leftoverPass l ord).get? i = some k ∧ ord ≤ k := by
  intro l
  induction l with
  | nil => intro ord i h; simp at h
  | cons hd tl ih =>
    intro ord i h
    cases i with
    | zero =>
      simp only [List.get?_cons_zero, Option.some.injEq] at h
      subst h
      exact ⟨ord, by simp [leftoverPass], le_refl ord⟩
    | succ i' =>
      simp only [List.get?_cons_succ] at h
      cases hd with
      | none =>
        obtain ⟨k, hk, hle⟩ := ih (ord + 1) i' h
        exact ⟨k, by simpa [leftoverPass] using hk, by omega⟩
      | some a =>
        obtain ⟨k, hk, hle⟩ := ih ord i' h
        exact ⟨k, by simpa [leftoverPass] using hk, hle⟩

theorem leftoverPass_mono : ∀ (l : List (Option Nat)) (ord i j : Nat),
    i < j → l.get? i = some none → l.get? j = some none →
    (leftoverPass l ord).getD i 0 < (leftoverPass l ord).getD j 0 := by
  intro l
  induction l with
  | nil => intro ord i j _ hi _; simp at hi
  | cons hd tl ih =>
    intro ord i j hij hi hj
    cases i with
    | zero =>
      simp only [List.get?_cons_zero, Option.some.injEq] at hi
      subst hi
      cases j with
      | zero => omega
      | succ j' =>
        simp only [List.get?_cons_succ] at hj
        obtain ⟨k, hk, hle⟩ := leftoverPass_ge tl (ord + 1) j' hj
        have hk2 : (leftoverPass tl (ord + 1))[j']? = some k := by
          rw [← List.get?_eq_getElem?]
          exact hk
        have hgd : (leftoverPass (none :: tl) ord).getD (j' + 1) 0 = k := by
          simp [leftoverPass, List.getD, hk2]
        have hgd0 : (leftoverPass (none :: tl) ord).getD 0 0 = ord := by
          simp [leftoverPass, List.getD]
        rw [hgd, hgd0]
        omega
    | succ i' =>
      cases j with
      | zero => omega
      | succ j' =>
        simp only [List.get?_cons_succ] at hi hj
        have hij' : i' < j' := by omega
        cases hd with
        | none =>
          have := ih (ord + 1) i' j' hij' hi hj
          simpa [leftoverPass, List.getD] using this
        | some a =>
          have := ih ord i' j' hij' hi hj
          simpa [leftoverPass, List.getD] using this

theorem zipWith_order_map : ∀ (es : List EdgeSemantics) (os : List Nat),
    es.length = os.length →
    (List.zipWith (fun e o => { e with order := o }) es os).map (fun e => e.order) = os := by
  intro es
  induction es with
  | nil =>
    intro os h
    cases os with
    | nil => rfl
    | cons _ _ => simp at h
  | cons e es' ih =>
    intro os h
    cases os with
    | nil => simp at h
    | cons o os' =>
      simp only [List.length_cons, Nat.succ.injEq] at h
      simp [List.zipWith, ih os' h]

theorem processEdges_invs (edges : List EdgeSemantics) (edgeTargets : String → List Nat)
    (visited : List String) (n : String) :
    ∀ (L : List Nat) (assigned : List (Option Nat)) (ord : Nat) (queue : List String),
      OrderInv edges.length assigned ord →
      SrcInv edges assigned →
      L.Pairwise (· < ·) →
      (∀ idx ∈ L, idx < edges.length ∧ srcAt edges idx = n) →
      (∀ i, i < edges.length → srcAt edges i = n → assigned.get? i = some none → i ∈ L) →
      OrderInv edges.length
          (processEdges edges edgeTargets visited L assigned ord queue).1
          (processEdges edges edgeTargets visited L assigned ord queue).2.1
        ∧ SrcInv edges (processEdges edges edgeTargets visited L assigned ord queue).1 := by
  intro L
  induction L with
  | nil =>
    intro assigned ord queue hA hS _ _ _
    exact ⟨hA, hS⟩
  | cons idx rest ih =>
    intro assigned ord queue hA hS hpw hmem hcomp
    obtain ⟨hidxN, hidxSrc⟩ := hmem idx (List.mem_cons_self idx rest)
    have hlen : assigned.length = edges.length := hA.2.2
    have hpwrest : rest.Pairwise (· < ·) := (List.pairwise_cons.mp hpw).2
    have hhead : ∀ x ∈ rest, idx < x := (List.pairwise_cons.mp hpw).1
    cases h : assigned.get? idx with
    | none =>
      exfalso
      rw [List.get?_eq_none] at h
      omega
    | some o =>
      cases o with
      | some v =>
        simp only [processEdges, h]
        refine ih assigned ord queue hA hS hpwrest
          (fun k hk => hmem k (List.mem_cons_of_mem idx hk)) ?_
        intro i hiN hiSrc hiNone
        rcases List.mem_cons.mp (hcomp i hiN hiSrc hiNone) with h1 | h2
        · subst h1
          rw [h] at hiNone
          exact Option.noConfusion (Option.some.inj hiNone)
        · exact h2
      | none =>
        have hlt : idx < assigned.length := by omega
        have hget_eq : (assigned.set idx (some ord)).get? idx = some (some ord) :=
          List.get?_set_eq_of_lt _ hlt
        have hget_ne : ∀ j, j ≠ idx →
            (assigned.set idx (some ord)).get? j = assigned.get? j :=
          fun j hj => List.get?_set_ne _ _ (fun hh => hj hh.symm)
        have hA1 : OrderInv edges.length (assigned.set idx (some ord)) (ord + 1) := by
          refine ⟨?_, ?_, ?_⟩
          · have hps := vals_set_perm h ord
            have hc1 : List.Perm (ord :: vals assigned) (ord :: List.range ord) :=
              (hA.1).cons ord
            have hc2 : List.Perm (ord :: List.range ord) (List.range (ord + 1)) := by
              rw [List.range_succ]
              exact (List.perm_append_singleton ord _).symm
            exact (hps.trans hc1).trans hc2
          · have hc := countNone_set_some h ord
            have := hA.2.1
            omega
          · rw [List.length_set]
            exact hA.2.2
        have hS1 : SrcInv edges (assigned.set idx (some ord)) := by
          constructor
          · intro i j a b hij hsrc hi hj
            by_cases hji : j = idx
            · subst hji
              rw [hget_eq] at hj
              simp only [Option.some.injEq] at hj
              have hii : i ≠ j := by omega
              rw [hget_ne i hii] at hi
              have hmem2 : a ∈ List.range ord := ((hA.1).mem_iff).mp (mem_vals_of_get? hi)
              have := List.mem_range.mp hmem2
              omega
            · by_cases hii : i = idx
              · subst hii
                rw [hget_ne j hji] at hj
                exact absurd hj (hS.2 i j b hij hsrc h)
              · rw [hget_ne i hii] at hi
                rw [hget_ne j hji] at hj
                exact hS.1 i j a b hij hsrc hi hj
          · intro i j b hij hsrc hi
            have hii : i ≠ idx := by
              intro hE
              subst hE
              rw [hget_eq] at hi
              exact Option.noConfusion (Option.some.inj hi)
            rw [hget_ne i hii] at hi
            by_cases hji : j = idx
            · subst hji
              intro _
              have hiN : i < edges.length := by omega
              have hiSrc : srcAt edges i = n := by rw [hsrc]; exact hidxSrc
              rcases List.mem_cons.mp (hcomp i hiN hiSrc hi) with h1 | h2
              · omega
              · have := hhead i h2
                omega
            · rw [hget_ne j hji]
              exact hS.2 i j b hij hsrc hi
        simp only [processEdges, h]
        refine ih _ (ord + 1) _ hA1 hS1 hpwrest
          (fun k hk => hmem k (List.mem_cons_of_mem idx hk)) ?_
        intro i hiN hiSrc hiNone
        have hii : i ≠ idx := by
          intro hE
          subst hE
          rw [hget_eq] at hiNone
          exact Option.noConfusion (Option.some.inj hiNone)
        rw [hget_ne i hii] at hiNone
        rcases List.mem_cons.mp (hcomp i hiN hiSrc hiNone) with h1 | h2
        · exact absurd h1 hii
        · exact h2

theorem bfsLoopF_invs (edges : List EdgeSemantics) (edgeTargets : String → List Nat) :
    ∀ (fuel : Nat) (assigned : List (Option Nat)) (ord : Nat)
      (visited queue : List String),
      OrderInv edges.length assigned ord → SrcInv edges assigned →
      OrderInv edges.length
          (bfsLoopF edges (edgeGraphIdx edges) edgeTargets fuel assigned ord visited queue).1
          (bfsLoopF edges (edgeGraphIdx edges) edgeTargets fuel assigned ord visited queue).2
        ∧ SrcInv edges
          (bfsLoopF edges (edgeGraphIdx edges) edgeTargets fuel assigned ord visited queue).1 := by
  intro fuel
  induction fuel with
  | zero => intro assigned ord visited queue hA hS; exact ⟨hA, hS⟩
  | succ f ih =>
    intro assigned ord visited queue hA hS
    cases queue with
    | nil => exact ⟨hA, hS⟩
    | cons nd rest =>
      by_cases hv : nd ∈ visited
      · simp only [bfsLoopF, if_pos hv]
        exact ih assigned ord visited rest hA hS
      · simp only [bfsLoopF, if_neg hv]
        have hpe := processEdges_invs edges edgeTargets (nd :: visited) nd
          (edgeGraphIdx edges nd) assigned ord rest hA hS
          (edgeGraphIdx_pairwise edges nd)
          (fun k hk => mem_edgeGraphIdx.mp hk)
          (fun i hiN hiSrc _ => mem_edgeGraphIdx.mpr ⟨hiN, hiSrc⟩)
        exact ih _ _ (nd :: visited) _ hpe.1 hpe.2

theorem getD_eq_of_get? {l : List Nat} {i k : Nat} (h : l.get? i = some k) :
    l.getD i 0 = k := by
  have h2 : l[i]? = some k := by
    rw [← List.get?_eq_getElem?]
    exact h
  simp [List.getD, h2]

theorem bfsResult_invs (nodeIter : List String) (edges : List EdgeSemantics) :
    OrderInv edges.length (bfsResult nodeIter edges).1 (bfsResult nodeIter edges).2
    ∧ SrcInv edges (bfsResult nodeIter edges).1 := by
  have hA0 : OrderInv edges.length (List.replicate edges.length none) 0 := by
    refine ⟨?_, ?_, ?_⟩
    · rw [vals_replicate_none]
      simp
    · rw [countNone_replicate]
      omega
    · exact List.length_replicate _ _
  have hS0 : SrcInv edges (List.replicate edges.length none) := by
    constructor
    · intro i j a b _ _ hi _
      exact absurd hi replicate_none_no_some
    · intro i j b _ _ _
      exact replicate_none_no_some
  exact bfsLoopF_invs edges (edgeTargetsIdx edges) _ _ _ _ _ hA0 hS0

theorem finalOrders_length (nodeIter : List String) (edges : List EdgeSemantics) :
    (finalOrders nodeIter edges).length = edges.length := by
  unfold finalOrders
  rw [leftoverPass_length]
  exact (bfsResult_invs nodeIter edges).1.2.2

theorem finalOrders_perm (nodeIter : List String) (edges : List EdgeSemantics) :
    List.Perm (finalOrders nodeIter edges) (List.range edges.length) := by
  obtain ⟨⟨hperm, hcount, _⟩, -⟩ := bfsResult_invs nodeIter edges
  have h1 := leftoverPass_perm (bfsResult nodeIter edges).1 (bfsResult nodeIter edges).2
  have h2 : List.Perm
      (vals (bfsResult nodeIter edges).1 ++
        List.range' (bfsResult nodeIter edges).2 (countNone (bfsResult nodeIter edges).1))
      (List.range' 0 (bfsResult nodeIter edges).2 ++
        List.range' (bfsResult nodeIter edges).2 (countNone (bfsResult nodeIter edges).1)) := by
    refine List.Perm.append_right _ ?_
    rw [← List.range_eq_range']
    exact hperm
  have h3 : List.range' 0 (bfsResult nodeIter edges).2 ++
      List.range' (bfsResult nodeIter edges).2 (countNone (bfsResult nodeIter edges).1) =
      List.range' 0 edges.length := by
    have h4 := List.range'_append_1 0 (bfsResult nodeIter edges).2
      (countNone (bfsResult nodeIter edges).1)
    rw [Nat.zero_add] at h4
    rw [h4]
    congr 1
    omega
  have h5 := (h1.trans h2)
  rw [h3] at h5
  unfold finalOrders
  rw [List.range_eq_range']
  exact h5

theorem calc_map_order (nodeIter : List String) (edges : List EdgeSemantics)
    (h : ¬ edges.isEmpty = true) :
    (calcAnimationOrder nodeIter edges).map (fun e => e.order) = finalOrders nodeIter edges := by
  unfold calcAnimationOrder
  rw [if_neg h]
  exact zipWith_order_map edges _ (finalOrders_length nodeIter edges).symm

/-! ## C1 -/

/-- C1: for every graph text and every iteration order of the node set,
the animation orders of the extracted records form a contiguous 0-based
permutation of `0..N-1` (each record gets exactly one order, none shared,
none skipped), and the records left unassigned by the breadth-first
traversal receive their appended orders in original declaration order. -/
theorem C1_order_contiguous_permutation (nodeIter : List String) (text : String) :
    List.Perm ((calcAnimationOrder nodeIter (parseEdgesRaw text)).map (fun e => e.order))
        (List.range (parseEdgesRaw text).length)
    ∧ (calcAnimationOrder nodeIter (parseEdgesRaw text)).length = (parseEdgesRaw text).length
    ∧ (∀ i j, i < j →
        (bfsResult nodeIter (parseEdgesRaw text)).1.get? i = some none →
        (bfsResult nodeIter (parseEdgesRaw text)).1.get? j = some none →
        (finalOrders nodeIter (parseEdgesRaw text)).getD i 0 <
          (finalOrders nodeIter (parseEdgesRaw text)).getD j 0) := by
  refine ⟨?_, ?_, ?_⟩
  · by_cases he : (parseEdgesRaw text).isEmpty = true
    · rw [List.isEmpty_iff] at he
      rw [he]
      simp [calcAnimationOrder]
    · rw [calc_map_order nodeIter (parseEdgesRaw text) he]
      exact finalOrders_perm nodeIter (parseEdgesRaw text)
  · by_cases he : (parseEdgesRaw text).isEmpty = true
    · rw [List.isEmpty_iff] at he
      rw [he]
      simp [calcAnimationOrder]
    · unfold calcAnimationOrder
      rw [if_neg he, List.length_zipWith, finalOrders_length]
      omega
  · intro i j hij hi hj
    exact leftoverPass_mono _ _ i j hij hi hj

/-- Witness for C1's leftover clause: in
`"A --> B; C --> D; D --> C"` the cyclic component's two edges are both
left unassigned by the traversal and receive increasing appended orders. -/
theorem C1_witness :
    (bfsResult ["A", "B", "C", "D"] (parseEdgesRaw "A --> B; C --> D; D --> C")).1.get? 1 =
        some none
    ∧ (bfsResult ["A", "B", "C", "D"] (parseEdgesRaw "A --> B; C --> D; D --> C")).1.get? 2 =
        some none
    ∧ (finalOrders ["A", "B", "C", "D"] (parseEdgesRaw "A --> B; C --> D; D --> C")).getD 1 0 <
        (finalOrders ["A", "B", "C", "D"] (parseEdgesRaw "A --> B; C --> D; D --> C")).getD 2 0 :=
  ⟨by decide, by decide,
    (C1_order_contiguous_permutation ["A", "B", "C", "D"] "A --> B; C --> D; D --> C").2.2
      1 2 (by decide) (by decide) (by decide)⟩

/-! ## C4 -/

set_option maxRecDepth 10000 in
/-- C4 (counterexample): the two node-iteration orders `[A, C, B]` and
`[B, C, A]` are permutations of the same node set — both legitimate
iterations of the Python `set` `all_nodes`, whose order is randomized
between processes — yet they yield different order assignments for
`"A --> C; B --> C"`; under the second, the edge declared second gets
order 0, so the seed tie is not broken by declaration order. -/
theorem C4_counterexample_seed_iteration_dependence :
    List.Perm ["A", "C", "B"] ["B", "C", "A"]
    ∧ calcAnimationOrder ["A", "C", "B"] (parseEdgesRaw "A --> C; B --> C") ≠
      calcAnimationOrder ["B", "C", "A"] (parseEdgesRaw "A --> C; B --> C")
    ∧ (calcAnimationOrder ["B", "C", "A"] (parseEdgesRaw "A --> C; B --> C")).map
        (fun e => e.order) = [1, 0] := by
  refine ⟨?_, ?_, ?_⟩
  · decide
  · decide
  · decide

/-- C4 (amended): relative to a fixed node-set iteration order the
assignment is a function of the text alone, and all ties among edges
sharing a source node are broken by original declaration order — an
earlier-declared edge of the same node always receives a smaller order,
whether both are reached by the traversal or both are leftovers. -/
theorem C4_amended_same_source_declaration_order (nodeIter : List String)
    (edges : List EdgeSemantics) (i j : Nat) (hij : i < j) (hj : j < edges.length)
    (hsrc : srcAt edges i = srcAt edges j) :
    ((calcAnimationOrder nodeIter edges).map (fun e => e.order)).getD i 0 <
      ((calcAnimationOrder nodeIter edges).map (fun e => e.order)).getD j 0 := by
  have hne : ¬ edges.isEmpty = true := by
    cases edges with
    | nil => simp at hj
    | cons e es => simp
  rw [calc_map_order nodeIter edges hne]
  obtain ⟨⟨hperm, hcount, hlen⟩, hS⟩ := bfsResult_invs nodeIter edges
  cases hgi : (bfsResult nodeIter edges).1.get? i with
  | none =>
    exfalso
    rw [List.get?_eq_none] at hgi
    omega
  | some oi =>
    cases hgj : (bfsResult nodeIter edges).1.get? j with
    | none =>
      exfalso
      rw [List.get?_eq_none] at hgj
      omega
    | some oj =>
      cases oi with
      | some a =>
        cases oj with
        | some b =>
          have hab := hS.1 i j a b hij hsrc hgi hgj
          have h1 : (finalOrders nodeIter edges).getD i 0 = a :=
            getD_eq_of_get? (leftoverPass_get_some _ _ i a hgi)
          have h2 : (finalOrders nodeIter edges).getD j 0 = b :=
            getD_eq_of_get? (leftoverPass_get_some _ _ j b hgj)
          rw [h1, h2]
          exact hab
        | none =>
          have ha_lt : a < (bfsResult nodeIter edges).2 :=
            List.mem_range.mp (hperm.mem_iff.mp (mem_vals_of_get? hgi))
          obtain ⟨k, hk, hke⟩ := leftoverPass_ge _ ((bfsResult nodeIter edges).2) j hgj
          have h1 : (finalOrders nodeIter edges).getD i 0 = a :=
            getD_eq_of_get? (leftoverPass_get_some _ _ i a hgi)
          have h2 : (finalOrders nodeIter edges).getD j 0 = k := getD_eq_of_get? hk
          rw [h1, h2]
          omega
      | none =>
        cases oj with
        | some b => exact absurd hgj (hS.2 i j b hij hsrc hgi)
        | none => exact leftoverPass_mono _ _ i j hij hgi hgj

set_option maxRecDepth 10000 in
/-- Witness for the amended C4: the two outgoing edges of `A` in
`"A --> B; A --> C"` receive orders in declaration order. -/
theorem C4_amended_witness :
    (0 : Nat) < 1 ∧ 1 < (parseEdgesRaw "A --> B; A --> C").length
    ∧ srcAt (parseEdgesRaw "A --> B; A --> C") 0 = srcAt (parseEdgesRaw "A --> B; A --> C") 1
    ∧ ((calcAnimationOrder ["A", "B", "C"] (parseEdgesRaw "A --> B; A --> C")).map
          (fun e => e.order)).getD 0 0 <
        ((calcAnimationOrder ["A", "B", "C"] (parseEdgesRaw "A --> B; A --> C")).map
          (fun e => e.order)).getD 1 0 :=
  ⟨by decide, by decide, by decide,
    C4_amended_same_source_declaration_order ["A", "B", "C"]
      (parseEdgesRaw "A --> B; A --> C") 0 1 (by decide) (by decide) (by decide)⟩

/-! ## Faithfulness of the fuelled loop -/

theorem processEdges_measure (edges : List EdgeSemantics) (edgeTargets : String → List Nat)
    (visited : List String) :
    ∀ (L : List Nat) (assigned : List (Option Nat)) (ord : Nat) (queue : List String),
      2 * countNone (processEdges edges edgeTargets visited L assigned ord queue).1
          + (processEdges edges edgeTargets visited L assigned ord queue).2.2.length
        ≤ 2 * countNone assigned + queue.length := by
  intro L
  induction L with
  | nil => intro assigned ord queue; simp [processEdges]
  | cons idx rest ih =>
    intro assigned ord queue
    cases h : assigned.get? idx with
    | none =>
      simp only [processEdges, h]
      exact ih assigned ord queue
    | some o =>
      cases o with
      | some v =>
        simp only [processEdges, h]
        exact ih assigned ord queue
      | none =>
        simp only [processEdges, h]
        refine le_trans (ih _ _ _) ?_
        have hcount := countNone_set_some h ord
        have hq : (if (edges.getD idx default).target ∈ visited then queue
            else
              if (edgeTargets (edges.getD idx default).target).all
                  (fun j => ((assigned.set idx (some ord)).getD j none).isSome)
                || (edges.getD idx default).target ∉ queue
              then queue ++ [(edges.getD idx default).target] else queue).length
            ≤ queue.length + 1 := by
          split
          · omega
          · split
            · simp
            · omega
        omega

theorem bfsLoopF_succ_stable (edges : List EdgeSemantics)
    (edgeGraph edgeTargets : String → List Nat) :
    ∀ (fuel : Nat) (assigned : List (Option Nat)) (ord : Nat)
      (visited queue : List String),
      2 * countNone assigned + queue.length ≤ fuel →
      bfsLoopF edges edgeGraph edgeTargets (fuel + 1) assigned ord visited queue =
        bfsLoopF edges edgeGraph edgeTargets fuel assigned ord visited queue := by
  intro fuel
  induction fuel with
  | zero =>
    intro assigned ord visited queue hm
    have hq : queue = [] := List.length_eq_zero.mp (by omega)
    subst hq
    rfl
  | succ f ih =>
    intro assigned ord visited queue hm
    cases queue with
    | nil => rfl
    | cons nd rest =>
      simp only [bfsLoopF]
      by_cases hv : nd ∈ visited
      · rw [if_pos hv, if_pos hv]
        refine ih assigned ord visited rest ?_
        simp only [List.length_cons] at hm
        omega
      · rw [if_neg hv, if_neg hv]
        refine ih _ _ (nd :: visited) _ ?_
        have := processEdges_measure edges edgeTargets (nd :: visited)
          (edgeGraph nd) assigned ord rest
        simp only [List.length_cons] at hm
        omega

/-- Any fuel at or above the loop measure yields the same BFS result, so
the fuelled loop is a faithful rendering of the unbounded `while` loop
(`bfsResult` supplies `2*N + |startNodes| + 1`, which dominates the
initial measure). -/
theorem bfsLoopF_fuel_irrelevant (edges : List EdgeSemantics)
    (edgeGraph edgeTargets : String → List Nat)
    (assigned : List (Option Nat)) (ord : Nat) (visited queue : List String)
    (fuel₁ fuel₂ : Nat)
    (h₁ : 2 * countNone assigned + queue.length ≤ fuel₁)
    (h₂ : 2 * countNone assigned + queue.length ≤ fuel₂) :
    bfsLoopF edges edgeGraph edgeTargets fuel₁ assigned ord visited queue =
      bfsLoopF edges edgeGraph edgeTargets fuel₂ assigned ord visited queue := by
  have key : ∀ (k m : Nat), 2 * countNone assigned + queue.length ≤ m →
      bfsLoopF edges edgeGraph edgeTargets (m + k) assigned ord visited queue =
        bfsLoopF edges edgeGraph edgeTargets m assigned ord visited queue := by
    intro k
    induction k with
    | zero => intro m _; rfl
    | succ k' ihk =>
      intro m hmle
      have h1 : m + (k' + 1) = (m + k') + 1 := by omega
      rw [h1]
      rw [bfsLoopF_succ_stable edges edgeGraph edgeTargets (m + k') assigned ord
        visited queue (by omega)]
      exact ihk m hmle
  have e₁ : fuel₁ = (2 * countNone assigned + queue.length) +
      (fuel₁ - (2 * countNone assigned + queue.length)) := by omega
  have e₂ : fuel₂ = (2 * countNone assigned + queue.length) +
      (fuel₂ - (2 * countNone assigned + queue.length)) := by omega
  rw [e₁, e₂, key _ _ (le_refl _), key _ _ (le_refl _)]
